import Mathlib

/-!
Verification development for the lmtreedb core: a tree-structured key/value
store over a transactional engine (`src/lib.rs`, `src/path.rs`,
`src/schema.rs`, `src/wrappers.rs`).

Modelling conventions:
* The binary value codec (rmpv / msgpack) is round-trippable by contract
  (`decode(encode(v)) = v`), so the engine is modelled as a map from key
  strings to decoded `Value`s rather than to byte arrays.
* lmdb transactions: a `put`/`del` that fails mid-way is aborted (the
  transaction is dropped without commit), so the observable store is the
  pre-state.  `StoragePut`/`StorageDel` encode commit-on-ok / abort-on-error.
* `HashSet<String>` (children sets) is modelled as a duplicate-free
  `List String`; insertion/removal/membership agree with set semantics,
  only the (unspecified) serialization order is made deterministic.
* The generic version resolver `load<T>` recurses over a static chain of
  types; the chain is modelled numerically (`Chain`) by each type's declared
  version together with its prev/next links, and the recursion gets explicit
  fuel.  Fuel sufficiency for well-formed chains is proved (claim C8).
* u64 arithmetic: versions are `Nat`; the only place the u64 range matters
  is the `version == u64::MAX` sentinel check, modelled via `U64MAX`.
-/

namespace Lmtreedb

/-- Binary value tree (the subset of rmpv `Value` the core manipulates:
nil, booleans, unsigned integers, strings, arrays; payloads are opaque). -/
inductive Value : Type where
  | nil : Value
  | bool (b : Bool) : Value
  | uint (n : Nat) : Value
  | str (s : String) : Value
  | arr (l : List Value) : Value

/-- Error values.  `my_error` errors carry a message and/or a source
position; positions are modelled by the source line number, formatted
messages by the formatted string.  `fuel` is the out-of-fuel marker of the
fueled resolver model (unreachable for well-formed chains, see claim C8). -/
inductive Err : Type where
  | msg (s : String) : Err
  | optNone (line : Nat) : Err
  | fuel : Err

/-- `Value::as_array` (rmpv): `Some` exactly on arrays. -/
def Value.asArray : Value → Option (List Value)
  | .arr l => some l
  | _ => none

/-- `Value::as_u64` (rmpv): `Some` exactly on unsigned integers. -/
def Value.asU64 : Value → Option Nat
  | .uint n => some n
  | _ => none

/-- `Value::as_str` (rmpv): `Some` exactly on strings. -/
def Value.asStr : Value → Option String
  | .str s => some s
  | _ => none

/-! ## Paths (`src/path.rs`) -/

/-- `Path(pub Vec<String>)`: an ordered sequence of name components. -/
abbrev Path : Type := List String

/-- `self.0.join("/")` : components joined by `/` (Rust `Vec::join`). -/
def sepJoin : List String → String
  | [] => ""
  | [a] => a
  | a :: rest => a ++ "/" ++ sepJoin rest

/-- `Display for Path`: the join, or `/` when the join is empty. -/
def Path.display (p : Path) : String :=
  if sepJoin p = "" then "/" else sepJoin p

/-- `Path::pop`: splits into the parent path and the last name
(`None` as name when the path has no parts). -/
def Path.pop (p : Path) : Path × Option String :=
  (p.dropLast, p.getLast?)

/-- Character-level split on `'/'` — Rust `str::split('/')`, which keeps
empty segments (leading, trailing, doubled separators, empty input). -/
def splitSlash : List Char → List (List Char)
  | [] => [[]]
  | c :: rest =>
    if c = '/' then [] :: splitSlash rest
    else
      match splitSlash rest with
      | s :: ss => (c :: s) :: ss
      | [] => [[c]]

/-- `impl AddAssign for Path` / `impl Add for Path`: the suffix's display
form is split on `'/'` and every segment (including empty ones) is pushed
as a new component. -/
def Path.add (p : Path) (rhs : String) : Path :=
  p ++ (splitSlash rhs.data).map (fun cs => String.mk cs)

/-- `Root::default().path()` = `Path(vec!["@root"])`. -/
def rootPath : Path := ["@root"]

/-! ## Envelope codec (`src/wrappers.rs`) -/

/-- Set-semantics insertion into a children list (`HashSet::insert`):
no duplicates are ever created. -/
def insertSet (l : List String) (n : String) : List String :=
  if n ∈ l then l else l ++ [n]

/-- Set-building from a serialized children array
(`HashSet::from_iter`; duplicates collapse). -/
def mkSet (l : List String) : List String :=
  l.foldl insertSet []

/-- `DataWrapperV1`: the envelope stored at each path key —
children names, stored payload version, opaque payload. -/
structure DataWrapperV1 : Type where
  children : List String
  version : Nat
  data : Value

/-- `DataWrapperV1::save`: the three-element array
`[children_as_string_array, version, payload]` (never fails). -/
def DataWrapperV1.save (d : DataWrapperV1) : Value :=
  .arr [.arr (d.children.map Value.str), .uint d.version, d.data]

/-- `DataWrapperV1::load`: expects a three-element array; element 0 an
array of strings (collected into a set), element 1 an unsigned integer,
element 2 opaque. -/
def DataWrapperV1.load (val : Value) : Except Err DataWrapperV1 :=
  match val.asArray with
  | none => .error (.optNone 81)
  | some l =>
    match l with
    | [c, v, d] =>
      match c.asArray with
      | none => .error (.optNone 85)
      | some cvs =>
        match cvs.mapM Value.asStr with
        | none => .error (.optNone 90)
        | some children =>
          match v.asU64 with
          | none => .error (.optNone 92)
          | some version => .ok ⟨mkSet children, version, d⟩
    | _ => .error (.msg "Invalid format")

/-- `VersionWrapper::<DataWrapperV1>::save`: the two-element array
`[T::version(), data.save()]`; `DataWrapperV1::version() = 1`. -/
def VersionWrapper.save (d : DataWrapperV1) : Value :=
  .arr [.uint 1, d.save]

/-! ## Schema chains and the version resolver (`src/lib.rs` lines 33–81,
`src/schema.rs`) -/

/-- `std::u64::MAX`. -/
def U64MAX : Nat := 2 ^ 64 - 1

/-- Numeric model of a static chain of schema types sharing carrier `α`.
A type is identified by its declared `VERSION`; `prevV t` / `nextV t`
are `T::PrevVersion::version()` / `T::NextVersion::version()` (`0` for the
absent schema `NoSchema`), and `loadF` / `saveF` / `upgradeF` / `downgradeF`
are the per-type `Schema` operations.  `upgradeF t` converts a loaded value
of the type at `prevV t` to the type at `t`; `downgradeF t` converts from
`nextV t` to `t`. -/
structure Chain (α : Type) : Type where
  prevV : Nat → Nat
  nextV : Nat → Nat
  loadF : Nat → Value → Except Err α
  saveF : Nat → α → Except Err Value
  upgradeF : Nat → α → Except Err α
  downgradeF : Nat → α → Except Err α

/-- Message of the `err!("Invalid PrevVersion: ...")` arm. -/
def invalidPrevMsg (prev version : Nat) : String :=
  "Invalid PrevVersion: " ++ toString prev ++ "; version: " ++ toString version

/-- Message of the `err!("Invalid NextVersion: ...")` arm. -/
def invalidNextMsg (next version : Nat) : String :=
  "Invalid NextVersion: " ++ toString next ++ "; version: " ++ toString version

/-- `fn load<T: Schema>(version, val)` — the chained upgrade/downgrade
resolver, with explicit fuel standing in for the static recursion over the
type graph (the Rust recursion is bounded by the chain shape; claim C8
proves the fuel is irrelevant for well-formed chains).  `t` is
`T::version()`. -/
def loadChain (c : Chain α) : Nat → Nat → Nat → Value → Except Err α
  | 0, _, _, _ => .error .fuel
  | fuel + 1, t, version, val =>
    if version = t then
      -- Ordering::Equal: just load it
      c.loadF t val
    else if version < t then
      -- Ordering::Less: found older version, asked for newer
      if t ≤ c.prevV t ∨ version = 0 then
        .error (.msg (invalidPrevMsg (c.prevV t) version))
      else
        match loadChain c fuel (c.prevV t) version val with
        | .error e => .error e
        | .ok down => c.upgradeF t down
    else
      -- Ordering::Greater: found newer version, asked for older
      if c.nextV t ≤ t ∨ version = U64MAX then
        .error (.msg (invalidNextMsg (c.nextV t) version))
      else
        match loadChain c fuel (c.nextV t) version val with
        | .error e => .error e
        | .ok up => c.downgradeF t up

/-- `|t - v|`: distance between the requested and the stored version. -/
def dist (t v : Nat) : Nat := (t - v) + (v - t)

/-- Fuel with which the model runs the resolver: one more than the
version distance (sufficient for well-formed chains, claim C8). -/
def chainFuel (t v : Nat) : Nat := dist t v + 1

/-- The resolver as invoked by the store: `load::<T>(version, val)` with
`t = T::version()`. -/
def loadRes (c : Chain α) (t version : Nat) (val : Value) : Except Err α :=
  loadChain c (chainFuel t version) t version val

/-- The chain of the single-version type `DataWrapperV1`
(`PrevVersion = NextVersion = NoSchema`, version `1`). -/
def dwChain : Chain DataWrapperV1 where
  prevV := fun _ => 0
  nextV := fun _ => 0
  loadF := fun t v =>
    if t = 1 then DataWrapperV1.load v
    else .error (.msg "Version too low, it should not ever exists")
  saveF := fun t d =>
    if t = 1 then .ok d.save
    else .error (.msg "Version too low, it should not ever exists")
  upgradeF := fun _ _ => .error (.msg "Cannot upgrade, no previous version exists")
  downgradeF := fun _ _ => .error (.msg "Cannot downgrade, no next version exists")

/-- `VersionWrapper::<DataWrapperV1>::load`: expects the two-element array
`[version, data]` and resolves the stored `version` to `DataWrapperV1`
through its chain.  (The wrapper struct only carries the loaded `data`
field, so the model returns the `DataWrapperV1` directly.) -/
def VersionWrapper.load (val : Value) : Except Err DataWrapperV1 :=
  match val.asArray with
  | none => .error (.optNone 28)
  | some l =>
    match l with
    | [v0, v1] =>
      match v0.asU64 with
      | none => .error (.optNone 34)
      | some version => loadRes dwChain 1 version v1
    | _ => .error (.msg "Invalid format")

/-- The chain of the single-version type `VersionWrapper<DataWrapperV1>`
(version `1`, `PrevVersion = NextVersion = NoSchema`). -/
def vwChain : Chain DataWrapperV1 where
  prevV := fun _ => 0
  nextV := fun _ => 0
  loadF := fun t v =>
    if t = 1 then VersionWrapper.load v
    else .error (.msg "Version too low, it should not ever exists")
  saveF := fun t d =>
    if t = 1 then .ok (VersionWrapper.save d)
    else .error (.msg "Version too low, it should not ever exists")
  upgradeF := fun _ _ => .error (.msg "VersionWrapper must have only one version")
  downgradeF := fun _ _ => .error (.msg "VersionWrapper must have only one version")

/-! ## The engine and the tree store (`src/lib.rs`) -/

/-- The engine's default database: decoded values keyed by path display
strings (the codec round-trip contract lets the model store decoded
values). -/
def Store : Type := String → Option Value

/-- Engine `put` with `NO_DUP_DATA` on the default database: plain
overwrite at a key. -/
def Store.put (s : Store) (k : String) (v : Value) : Store :=
  fun k' => if k' = k then some v else s k'

/-- Engine `delete` at a key. -/
def Store.del (s : Store) (k : String) : Store :=
  fun k' => if k' = k then none else s k'

/-- `RoTransactionExt::info`: engine get at `path.to_string()`;
`NotFound ↦ Ok(None)`; otherwise decode and run
`load::<VersionWrapper<DataWrapperV1>>(1, parsed)`. -/
def infoM (s : Store) (p : Path) : Except Err (Option DataWrapperV1) :=
  match s (Path.display p) with
  | none => .ok none
  | some v =>
    match loadRes vwChain 1 1 v with
    | .error e => .error e
    | .ok d => .ok (some d)

/-- `RoTransactionExt::get::<T>`: `info`, then resolve the stored version
to `T` (`t = T::version()`, chain `c`). -/
def getM (c : Chain α) (t : Nat) (s : Store) (p : Path) : Except Err (Option α) :=
  match infoM s p with
  | .error e => .error e
  | .ok none => .ok none
  | .ok (some dw) =>
    match loadRes c t dw.version dw.data with
    | .error e => .error e
    | .ok v => .ok (some v)

/-- `RwTransactionExt::put_unsafe_version` ∘ `put_unsafe`: wrap the
envelope in `VersionWrapper`, encode, engine put at `path.to_string()`.
(`DataWrapperV1::save` and the encoder cannot fail.) -/
def putUnsafeVersion (p : Path) (d : DataWrapperV1) (s : Store) : Store :=
  s.put (Path.display p) (VersionWrapper.save d)

/-- `RwTransactionExt::put::<T>` inside a write transaction.  `ver` is
`T::version()` and `sv` the outcome of `data.save()`.  Returns the updated
store and whether the "overwriting newer version with older" warning was
emitted. -/
def putM (ver : Nat) (sv : Except Err Value) (p : Path) (s : Store) :
    Except Err (Store × Bool) :=
  match infoM s p with
  | .error e => .error e
  | .ok none =>
    -- New key: tell the parent about the new child first.
    match Path.pop p with
    | (parentPath, name?) =>
      match name? with
      | none => .error (.optNone 174)
      | some name =>
        match infoM s parentPath with
        | .error e => .error e
        | .ok none =>
          .error (.msg ("No parent '" ++ Path.display parentPath ++ "' found for '"
            ++ Path.display p ++ "'"))
        | .ok (some par) =>
          let s1 := putUnsafeVersion parentPath
            { par with children := insertSet par.children name } s
          -- put_unsafe_wrapped: children = ∅, version = T::version(), data = save
          match sv with
          | .error e => .error e
          | .ok payload =>
            .ok (putUnsafeVersion p ⟨[], ver, payload⟩ s1, false)
  | .ok (some ex) =>
    -- Existing key: the parent already links here; just overwrite.
    let warned := decide (ver < ex.version)
    match sv with
    | .error e => .error e
    | .ok payload =>
      .ok (putUnsafeVersion p ⟨ex.children, ver, payload⟩ s, warned)

/-- `RwTransactionExt::del` inside a write transaction. -/
def delM (p : Path) (s : Store) : Except Err Store :=
  match infoM s p with
  | .error e => .error e
  | .ok none => .error (.optNone 226)
  | .ok (some info) =>
    if info.children.isEmpty = false then .error (.msg "Cannot del file with children")
    else
      match Path.pop p with
      | (parentPath, name?) =>
        match name? with
        | none => .error (.optNone 233)
        | some name =>
          match infoM s parentPath with
          | .error e => .error e
          | .ok none => .error (.optNone 236)
          | .ok (some parent) =>
            let s1 := putUnsafeVersion parentPath
              { parent with children := parent.children.erase name } s
            .ok (s1.del (Path.display p))

/-- `Storage::put`: acquire a write transaction, run `put`, commit on
success; on error the transaction is dropped without commit, so the engine
keeps the pre-state. -/
def StoragePut (ver : Nat) (sv : Except Err Value) (p : Path) (s : Store) :
    Store × Option Err :=
  match putM ver sv p s with
  | .ok (s', _) => (s', none)
  | .error e => (s, some e)

/-- `Storage::del`: commit on success, abort (pre-state kept) on error. -/
def StorageDel (p : Path) (s : Store) : Store × Option Err :=
  match delM p s with
  | .ok s' => (s', none)
  | .error e => (s, some e)

/-- `Storage::children`: a read transaction plus `info`. -/
def childrenM (s : Store) (p : Path) : Except Err (Option DataWrapperV1) :=
  infoM s p

/-- `Storage::connect` on a fresh directory: create the database and run
`init_root`, which writes the root envelope (empty children, version 1 —
`()` is a first-version schema — nil payload) at `@root`. -/
def s0 : Store :=
  putUnsafeVersion rootPath ⟨[], 1, .nil⟩ (fun _ => none)

/-! ## Path validity and display injectivity -/

/-- A valid name component: a string not containing the separator `/`
(the spec's Path data model). -/
def ValidName (n : String) : Prop := '/' ∉ n.data

/-- A valid path: every component is a valid name. -/
def ValidPath (p : Path) : Prop := ∀ n ∈ p, ValidName n

theorem validPath_dropLast {p : Path} (h : ValidPath p) : ValidPath p.dropLast :=
  fun n hn => h n (List.dropLast_subset p hn)

theorem chars_sep_inj : ∀ (a b x y : List Char), '/' ∉ a → '/' ∉ b →
    a ++ '/' :: x = b ++ '/' :: y → a = b ∧ x = y := by
  intro a
  induction a with
  | nil =>
    intro b x y _ hb h
    cases b with
    | nil => simpa using h
    | cons c b' =>
      simp only [List.nil_append, List.cons_append, List.cons.injEq] at h
      exact absurd (by rw [← h.1]; exact List.mem_cons_self _ _ : '/' ∈ c :: b') hb
  | cons c a' ih =>
    intro b x y ha hb h
    cases b with
    | nil =>
      simp only [List.cons_append, List.nil_append, List.cons.injEq] at h
      exact absurd (by rw [h.1]; exact List.mem_cons_self _ _ : '/' ∈ c :: a') ha
    | cons d b' =>
      simp only [List.cons_append, List.cons.injEq] at h
      have hd := h.1
      have := ih b' x y (fun hm => ha (List.mem_cons_of_mem c hm))
        (fun hm => hb (hd ▸ List.mem_cons_of_mem d hm)) h.2
      exact ⟨by simp [hd, this.1], this.2⟩

theorem sepJoin_cons (a : String) (p : List String) (h : p ≠ []) :
    sepJoin (a :: p) = a ++ "/" ++ sepJoin p := by
  cases p with
  | nil => exact absurd rfl h
  | cons b r => rfl

theorem sepJoin_data_cons (a : String) (p : List String) (h : p ≠ []) :
    (sepJoin (a :: p)).data = a.data ++ '/' :: (sepJoin p).data := by
  rw [sepJoin_cons a p h]
  simp

theorem sepJoin_eq_empty {p : List String} (hne : p ≠ []) (h : sepJoin p = "") :
    p = [""] := by
  cases p with
  | nil => exact absurd rfl hne
  | cons a r =>
    cases r with
    | nil =>
      have ha : a = "" := h
      simp [ha]
    | cons b r' =>
      exfalso
      have hd := congrArg String.data h
      rw [sepJoin_data_cons a (b :: r') (by simp)] at hd
      simp at hd

theorem sepJoin_inj : ∀ (p q : List String), p ≠ [] → q ≠ [] →
    ValidPath p → ValidPath q → sepJoin p = sepJoin q → p = q := by
  intro p
  induction p with
  | nil => intro q hp; exact absurd rfl hp
  | cons a p' ih =>
    intro q _ hq hvp hvq h
    cases q with
    | nil => exact absurd rfl hq
    | cons b q' =>
      cases hp' : p' with
      | nil =>
        cases hq' : q' with
        | nil =>
          subst hp' hq'
          have hab : a = b := h
          simp [hab]
        | cons c r =>
          subst hp' hq'
          have hd := congrArg String.data h
          rw [sepJoin_data_cons b (c :: r) (by simp)] at hd
          have : '/' ∈ (sepJoin [a]).data := by
            rw [hd]; exact List.mem_append_right _ (List.mem_cons_self _ _)
          exact absurd this (hvp a (by simp))
      | cons c r =>
        cases hq' : q' with
        | nil =>
          subst hp' hq'
          have hd := congrArg String.data h
          rw [sepJoin_data_cons a (c :: r) (by simp)] at hd
          have : '/' ∈ (sepJoin [b]).data := by
            rw [← hd]; exact List.mem_append_right _ (List.mem_cons_self _ _)
          exact absurd this (hvq b (by simp))
        | cons e t =>
          subst hp' hq'
          have hd := congrArg String.data h
          rw [sepJoin_data_cons a (c :: r) (by simp),
            sepJoin_data_cons b (e :: t) (by simp)] at hd
          have hab := chars_sep_inj a.data b.data (sepJoin (c :: r)).data
            (sepJoin (e :: t)).data (hvp a (by simp)) (hvq b (by simp)) hd
          have h1 : a = b := String.ext hab.1
          have h2 : (c :: r) = (e :: t) := by
            refine ih (e :: t) (by simp) (by simp)
              (fun n hn => hvp n (List.mem_cons_of_mem a hn))
              (fun n hn => hvq n (List.mem_cons_of_mem b hn))
              (String.ext hab.2)
          rw [h1, h2]

theorem sepJoin_root_ne_empty {q : List String} (hq : q.head? = some "@root") :
    sepJoin q ≠ "" := by
  cases q with
  | nil => simp at hq
  | cons a r =>
    have ha : a = "@root" := by simpa using hq
    subst ha
    cases r with
    | nil => simp [sepJoin]
    | cons b r' =>
      intro h
      have := congrArg String.data h
      rw [sepJoin_data_cons _ (b :: r') (by simp)] at this
      simp at this

/-- Display is injective when one side is a valid `@root`-rooted path and the
other is any valid path: the canonicalization needed to reason about engine
keys. -/
theorem display_eq_root_path {a q : List String} (hva : ValidPath a)
    (hvq : ValidPath q) (hq : q.head? = some "@root")
    (h : Path.display a = Path.display q) : a = q := by
  have hqj : sepJoin q ≠ "" := sepJoin_root_ne_empty hq
  have hdq : Path.display q = sepJoin q := by simp [Path.display, hqj]
  rw [hdq] at h
  by_cases haj : sepJoin a = ""
  · exfalso
    have : Path.display a = "/" := by simp [Path.display, haj]
    rw [this] at h
    -- sepJoin q = "/" with head "@root" is impossible
    cases q with
    | nil => simp at hq
    | cons b r =>
      have hb : b = "@root" := by simpa using hq
      subst hb
      cases r with
      | nil => simp [sepJoin] at h
      | cons c r' =>
        have := congrArg String.data h.symm
        rw [sepJoin_data_cons _ (c :: r') (by simp)] at this
        simp [show ("/" : String).data = ['/'] from rfl] at this
  · have hda : Path.display a = sepJoin a := by simp [Path.display, haj]
    rw [hda] at h
    have hane : a ≠ [] := by rintro rfl; exact haj rfl
    have hqne : q ≠ [] := by rintro rfl; simp at hq
    exact sepJoin_inj a q hane hqne hva hvq h

theorem head_append_singleton {q : List String} {n : String} (hq : q ≠ []) :
    (q ++ [n]).head? = q.head? := by
  cases q with
  | nil => exact absurd rfl hq
  | cons a r => rfl

theorem pop_append (q : List String) (n : String) :
    Path.pop (q ++ [n]) = (q, some n) := by
  simp [Path.pop]

theorem eq_append_pop {p : Path} {q : Path} {n : String}
    (h : Path.pop p = (q, some n)) : p = q ++ [n] ∧ q = p.dropLast := by
  unfold Path.pop at h
  have h1 : p.dropLast = q := congrArg Prod.fst h
  have h2 : p.getLast? = some n := congrArg Prod.snd h
  have hne : p ≠ [] := by rintro rfl; simp at h2
  refine ⟨?_, h1.symm⟩
  rw [← h1]
  have := List.dropLast_append_getLast hne
  rw [List.getLast?_eq_getLast p hne] at h2
  rw [← Option.some_inj.mp h2]
  exact this.symm

/-! ## Children-set lemmas -/

theorem mem_insertSet {l : List String} {n m : String} :
    m ∈ insertSet l n ↔ m ∈ l ∨ m = n := by
  unfold insertSet
  by_cases h : n ∈ l
  · simp only [if_pos h]
    constructor
    · exact Or.inl
    · rintro (hm | rfl) <;> [exact hm; exact h]
  · simp [if_neg h]

theorem insertSet_nodup {l : List String} {n : String} (h : l.Nodup) :
    (insertSet l n).Nodup := by
  unfold insertSet
  by_cases hn : n ∈ l
  · simpa [if_pos hn]
  · simp [if_neg hn, List.nodup_append, h, hn]

theorem self_mem_insertSet {l : List String} {n : String} : n ∈ insertSet l n :=
  mem_insertSet.mpr (Or.inr rfl)

theorem foldl_insertSet_mem {l : List String} :
    ∀ (acc : List String) (m : String),
      m ∈ l.foldl insertSet acc ↔ m ∈ acc ∨ m ∈ l := by
  induction l with
  | nil => simp
  | cons a l ih =>
    intro acc m
    simp only [List.foldl_cons]
    rw [ih]
    rw [mem_insertSet]
    constructor
    · rintro ((hm | rfl) | hm)
      · exact Or.inl hm
      · exact Or.inr (List.mem_cons_self _ _)
      · exact Or.inr (List.mem_cons_of_mem _ hm)
    · rintro (hm | hm)
      · exact Or.inl (Or.inl hm)
      · rcases List.mem_cons.mp hm with rfl | hm
        · exact Or.inl (Or.inr rfl)
        · exact Or.inr hm

theorem mem_mkSet {l : List String} {m : String} : m ∈ mkSet l ↔ m ∈ l := by
  unfold mkSet
  rw [foldl_insertSet_mem]
  simp

theorem foldl_insertSet_nodup {l : List String} :
    ∀ (acc : List String), acc.Nodup → (l.foldl insertSet acc).Nodup := by
  induction l with
  | nil => intro acc h; simpa
  | cons a l ih =>
    intro acc h
    simp only [List.foldl_cons]
    exact ih _ (insertSet_nodup h)

theorem mkSet_nodup (l : List String) : (mkSet l).Nodup :=
  foldl_insertSet_nodup [] List.nodup_nil

theorem foldl_insertSet_of_disjoint {l : List String} :
    ∀ (acc : List String), l.Nodup → (∀ x ∈ l, x ∉ acc) →
      l.foldl insertSet acc = acc ++ l := by
  induction l with
  | nil => simp
  | cons a l ih =>
    intro acc hnd hdisj
    simp only [List.foldl_cons]
    have ha : a ∉ acc := hdisj a (List.mem_cons_self _ _)
    have hstep : insertSet acc a = acc ++ [a] := by simp [insertSet, ha]
    rw [hstep, ih (acc ++ [a]) (List.Nodup.of_cons hnd)]
    · simp
    · intro x hx
      simp only [List.mem_append, List.mem_singleton]
      rintro (hxa | rfl)
      · exact hdisj x (List.mem_cons_of_mem _ hx) hxa
      · exact (List.nodup_cons.mp hnd).1 hx

theorem mkSet_eq_of_nodup {l : List String} (h : l.Nodup) : mkSet l = l := by
  unfold mkSet
  rw [foldl_insertSet_of_disjoint [] h (by simp)]
  simp

/-! ## Envelope parse/save round trip -/

theorem mapM_loop_asStr (l : List String) :
    ∀ acc : List String,
      List.mapM.loop Value.asStr (l.map Value.str) acc = some (acc.reverse ++ l) := by
  induction l with
  | nil => intro acc; simp [List.mapM.loop]
  | cons a l ih =>
    intro acc
    show List.mapM.loop Value.asStr (Value.str a :: List.map Value.str l) acc = _
    have : List.mapM.loop Value.asStr (Value.str a :: List.map Value.str l) acc
        = List.mapM.loop Value.asStr (List.map Value.str l) (a :: acc) := rfl
    rw [this, ih (a :: acc)]
    simp

theorem mapM_asStr_map (l : List String) :
    List.mapM.loop Value.asStr (l.map Value.str) [] = some l := by
  rw [mapM_loop_asStr l []]
  simp

theorem dw_load_save (d : DataWrapperV1) :
    DataWrapperV1.load d.save = .ok ⟨mkSet d.children, d.version, d.data⟩ := by
  unfold DataWrapperV1.load DataWrapperV1.save
  simp [Value.asArray, mapM_asStr_map, Value.asU64]

/-- Parsing what `put_unsafe_version` wrote recovers the envelope with its
children collapsed to a set. -/
theorem vw_parse_save (d : DataWrapperV1) :
    loadRes vwChain 1 1 (VersionWrapper.save d)
      = .ok ⟨mkSet d.children, d.version, d.data⟩ := by
  show loadChain vwChain 1 1 1 (VersionWrapper.save d) = _
  unfold loadChain
  simp only [if_pos rfl]
  show VersionWrapper.load (VersionWrapper.save d) = _
  unfold VersionWrapper.load VersionWrapper.save
  simp only [Value.asArray, Value.asU64]
  show loadRes dwChain 1 1 d.save = _
  show loadChain dwChain 1 1 1 d.save = _
  unfold loadChain
  simp only [if_pos rfl]
  show DataWrapperV1.load d.save = _
  exact dw_load_save d

/-- A good envelope: positive stored version, duplicate-free children, all
children names separator-free.  Every envelope a reachable store holds is
good. -/
def GoodEnv (d : DataWrapperV1) : Prop :=
  0 < d.version ∧ d.children.Nodup ∧ ∀ n ∈ d.children, ValidName n

theorem vw_parse_save_good {d : DataWrapperV1} (h : d.children.Nodup) :
    loadRes vwChain 1 1 (VersionWrapper.save d) = .ok d := by
  rw [vw_parse_save, mkSet_eq_of_nodup h]

/-! ## Store and lookup lemmas -/

theorem Store.put_same (s : Store) (k : String) (v : Value) : (s.put k v) k = some v := by
  simp [Store.put]

theorem Store.put_other (s : Store) {k k' : String} (v : Value) (h : k' ≠ k) :
    (s.put k v) k' = s k' := by
  simp [Store.put, h]

theorem Store.del_same (s : Store) (k : String) : (s.del k) k = none := by
  simp [Store.del]

theorem Store.del_other (s : Store) {k k' : String} (h : k' ≠ k) :
    (s.del k) k' = s k' := by
  simp [Store.del, h]

/-- The envelope visible at a path (the successfully parsed case of `info`). -/
def envOf (s : Store) (p : Path) : Option DataWrapperV1 :=
  match infoM s p with
  | .ok (some d) => some d
  | _ => none

theorem infoM_of_absent {s : Store} {p : Path} (h : s (Path.display p) = none) :
    infoM s p = .ok none := by
  unfold infoM
  rw [h]

theorem infoM_ok_none_absent {s : Store} {p : Path} (h : infoM s p = .ok none) :
    s (Path.display p) = none := by
  unfold infoM at h
  cases hk : s (Path.display p) with
  | none => rfl
  | some v =>
    rw [hk] at h
    exfalso
    cases hl : loadRes vwChain 1 1 v with
    | error e => simp [hl] at h
    | ok d => simp [hl] at h

/-- `info` only looks at the store through the path's key. -/
theorem infoM_congr {s t : Store} {p : Path}
    (h : s (Path.display p) = t (Path.display p)) : infoM s p = infoM t p := by
  unfold infoM
  rw [h]

theorem envOf_congr {s t : Store} {p : Path}
    (h : s (Path.display p) = t (Path.display p)) : envOf s p = envOf t p := by
  unfold envOf
  rw [infoM_congr h]

theorem infoM_of_good {s : Store} {p : Path} {d : DataWrapperV1}
    (hk : s (Path.display p) = some (VersionWrapper.save d)) (hnd : d.children.Nodup) :
    infoM s p = .ok (some d) := by
  unfold infoM
  rw [hk]
  simp only [vw_parse_save_good hnd]

theorem envOf_of_good {s : Store} {p : Path} {d : DataWrapperV1}
    (hk : s (Path.display p) = some (VersionWrapper.save d)) (hnd : d.children.Nodup) :
    envOf s p = some d := by
  unfold envOf
  rw [infoM_of_good hk hnd]

theorem envOf_isSome_key {s : Store} {p : Path} {d : DataWrapperV1}
    (h : envOf s p = some d) : (s (Path.display p)).isSome = true := by
  unfold envOf at h
  cases hk : s (Path.display p) with
  | none =>
    rw [infoM_of_absent hk] at h
    simp at h
  | some v => rfl

theorem infoM_some_key {s : Store} {p : Path} {d : DataWrapperV1}
    (h : infoM s p = .ok (some d)) : (s (Path.display p)).isSome = true := by
  cases hk : s (Path.display p) with
  | none => rw [infoM_of_absent hk] at h; simp at h
  | some v => rfl

theorem envOf_of_infoM {s : Store} {p : Path} {d : DataWrapperV1}
    (h : infoM s p = .ok (some d)) : envOf s p = some d := by
  unfold envOf
  rw [h]

/-! ## Characterizations of successful put/del -/

/-- A successful `put` either overwrote an existing envelope (keeping its
children, no parent access) or created a new one (after linking it into the
parent's children). -/
theorem putM_ok_cases {ver : Nat} {sv : Except Err Value} {p : Path} {s s' : Store}
    {w : Bool} (h : putM ver sv p s = .ok (s', w)) :
    (∃ ex payload, infoM s p = .ok (some ex) ∧ sv = .ok payload ∧
        s' = putUnsafeVersion p ⟨ex.children, ver, payload⟩ s ∧
        w = decide (ver < ex.version))
    ∨ (∃ par payload name, infoM s p = .ok none ∧ p.getLast? = some name ∧
        infoM s p.dropLast = .ok (some par) ∧ sv = .ok payload ∧
        s' = putUnsafeVersion p ⟨[], ver, payload⟩
          (putUnsafeVersion p.dropLast
            { par with children := insertSet par.children name } s) ∧
        w = false) := by
  unfold putM at h
  cases hi : infoM s p with
  | error e => rw [hi] at h; simp at h
  | ok o =>
    rw [hi] at h
    cases o with
    | some ex =>
      left
      cases hsv : sv with
      | error e => rw [hsv] at h; simp at h
      | ok payload =>
        rw [hsv] at h
        simp only [Except.ok.injEq, Prod.mk.injEq] at h
        exact ⟨ex, payload, rfl, rfl, h.1.symm, h.2.symm⟩
    | none =>
      right
      simp only [Path.pop] at h
      cases hn : p.getLast? with
      | none => rw [hn] at h; simp at h
      | some name =>
        rw [hn] at h
        cases hp : infoM s p.dropLast with
        | error e => rw [hp] at h; simp at h
        | ok po =>
          rw [hp] at h
          cases po with
          | none => simp at h
          | some par =>
            cases hsv : sv with
            | error e => rw [hsv] at h; simp at h
            | ok payload =>
              rw [hsv] at h
              simp only [Except.ok.injEq, Prod.mk.injEq] at h
              exact ⟨par, payload, name, rfl, rfl, rfl, rfl, h.1.symm, h.2.symm⟩

/-- A successful `del` found an envelope with empty children and a present
parent; it rewrote the parent without the name and removed the key. -/
theorem delM_ok_cases {p : Path} {s s' : Store} (h : delM p s = .ok s') :
    ∃ inf par name, infoM s p = .ok (some inf) ∧ inf.children = [] ∧
      p.getLast? = some name ∧ infoM s p.dropLast = .ok (some par) ∧
      s' = (putUnsafeVersion p.dropLast
        { par with children := par.children.erase name } s).del (Path.display p) := by
  unfold delM at h
  split at h
  next e heq => simp at h
  next heq => simp at h
  next inf heq =>
    split at h
    next hc => simp at h
    next hc =>
      have hce : inf.children = [] := by
        cases hl : inf.children with
        | nil => rfl
        | cons a l => rw [hl] at hc; simp at hc
      simp only [Path.pop] at h
      split at h
      next hn => simp at h
      next name hn =>
        split at h
        next e hp => simp at h
        next hp => simp at h
        next par hp =>
          simp only [Except.ok.injEq] at h
          exact ⟨inf, par, name, heq, hce, hn, hp, h.symm⟩

/-! ## The tree invariant -/

theorem putUV_same (p : Path) (d : DataWrapperV1) (s : Store) :
    (putUnsafeVersion p d s) (Path.display p) = some (VersionWrapper.save d) :=
  Store.put_same s (Path.display p) (VersionWrapper.save d)

theorem putUV_other {p : Path} {k : String} (d : DataWrapperV1) (s : Store)
    (h : k ≠ Path.display p) : (putUnsafeVersion p d s) k = s k :=
  Store.put_other s (VersionWrapper.save d) h

theorem display_ne {a q : Path} (hva : ValidPath a) (hvq : ValidPath q)
    (hq : q.head? = some "@root") (hne : a ≠ q) :
    Path.display a ≠ Path.display q :=
  fun h => hne (display_eq_root_path hva hvq hq h)

/-- The tree invariant maintained by the store layer (claim C1): every key
is the display of a valid `@root`-rooted path (I1), every stored value is a
well-formed envelope with positive version (I5), the root key is present,
every present non-root path is linked from its present parent (I2), and
every child link points at a present key (I3). -/
structure Inv (s : Store) : Prop where
  keys : ∀ k, (s k).isSome = true →
    ∃ q, ValidPath q ∧ q.head? = some "@root" ∧ Path.display q = k
  shape : ∀ k v, s k = some v → ∃ d, v = VersionWrapper.save d ∧ GoodEnv d
  root : (s "@root").isSome = true
  par : ∀ q n, ValidPath q → ValidName n → q ++ [n] ≠ rootPath →
    (s (Path.display (q ++ [n]))).isSome = true →
    ∃ d, envOf s q = some d ∧ n ∈ d.children
  chl : ∀ q d, ValidPath q → envOf s q = some d →
    ∀ n, n ∈ d.children → (s (Path.display (q ++ [n]))).isSome = true

/-- Under the invariant, every present valid path starts at the root. -/
theorem present_head_root {s : Store} (inv : Inv s) {a : Path} (hva : ValidPath a)
    (h : (s (Path.display a)).isSome = true) : a.head? = some "@root" := by
  obtain ⟨q, hvq, hq, hdq⟩ := inv.keys _ h
  have : a = q := display_eq_root_path hva hvq hq hdq.symm
  rw [this]
  exact hq

/-- Under the invariant, a present key parses to a good envelope, so
`envOf` is `some` exactly on present keys. -/
theorem present_envOf {s : Store} (inv : Inv s) {a : Path}
    (h : (s (Path.display a)).isSome = true) :
    ∃ d, envOf s a = some d ∧ GoodEnv d := by
  cases hk : s (Path.display a) with
  | none => rw [hk] at h; simp at h
  | some v =>
    obtain ⟨d, rfl, hgood⟩ := inv.shape _ v hk
    exact ⟨d, envOf_of_good hk hgood.2.1, hgood⟩

theorem envOf_good {s : Store} (inv : Inv s) {a : Path} {d : DataWrapperV1}
    (h : envOf s a = some d) : GoodEnv d := by
  obtain ⟨d', hd', hgood⟩ := present_envOf inv (envOf_isSome_key h)
  rw [h] at hd'
  cases hd'
  exact hgood

theorem infoM_good {s : Store} (inv : Inv s) {a : Path} {d : DataWrapperV1}
    (h : infoM s a = .ok (some d)) : GoodEnv d :=
  envOf_good inv (envOf_of_infoM h)

instance (n : String) : Decidable (ValidName n) :=
  inferInstanceAs (Decidable ('/' ∉ n.data))

instance (p : Path) : Decidable (ValidPath p) :=
  inferInstanceAs (Decidable (∀ n ∈ p, ValidName n))

theorem validPath_append {q : Path} {n : String} (hq : ValidPath q)
    (hn : ValidName n) : ValidPath (q ++ [n]) := by
  intro m hm
  rcases List.mem_append.mp hm with h | h
  · exact hq m h
  · rw [List.mem_singleton.mp h]
    exact hn

theorem validPath_rootPath : ValidPath rootPath := by decide

theorem display_rootPath : Path.display rootPath = "@root" := rfl

theorem s0_eq (k : String) :
    s0 k = if k = "@root" then some (VersionWrapper.save ⟨[], 1, .nil⟩) else none := by
  unfold s0 putUnsafeVersion Store.put
  rw [display_rootPath]

/-- The bootstrapped store satisfies the tree invariant. -/
theorem inv_s0 : Inv s0 := by
  constructor
  · intro k h
    rw [s0_eq] at h
    by_cases hk : k = "@root"
    · exact ⟨rootPath, validPath_rootPath, rfl, by rw [display_rootPath, hk]⟩
    · rw [if_neg hk] at h; simp at h
  · intro k v h
    rw [s0_eq] at h
    by_cases hk : k = "@root"
    · rw [if_pos hk] at h
      refine ⟨⟨[], 1, .nil⟩, (Option.some_inj.mp h).symm, Nat.one_pos, List.nodup_nil, ?_⟩
      simp
    · rw [if_neg hk] at h; simp at h
  · rw [s0_eq]; simp
  · intro q n hvq hvn hne h
    exfalso
    rw [s0_eq] at h
    by_cases hk : Path.display (q ++ [n]) = "@root"
    · exact hne (display_eq_root_path (validPath_append hvq hvn) validPath_rootPath rfl
        (by rw [hk, display_rootPath]))
    · rw [if_neg hk] at h; simp at h
  · intro q d hvq henv n hn
    exfalso
    have hpres := envOf_isSome_key henv
    rw [s0_eq] at hpres
    by_cases hk : Path.display q = "@root"
    · have hq : q = rootPath := display_eq_root_path hvq validPath_rootPath rfl
        (by rw [hk, display_rootPath])
      subst hq
      have henv0 : envOf s0 rootPath = some ⟨[], 1, .nil⟩ :=
        envOf_of_good (by rw [s0_eq, display_rootPath]; simp) List.nodup_nil
      rw [henv0] at henv
      cases henv
      simp at hn
    · rw [if_neg hk] at hpres; simp at hpres

theorem putUV_presence {p : Path} {d : DataWrapperV1} {s : Store} {k : String}
    (h : (s k).isSome = true) : ((putUnsafeVersion p d s) k).isSome = true := by
  by_cases hk : k = Path.display p
  · subst hk
    rw [putUV_same]
    rfl
  · rw [putUV_other d s hk]
    exact h

theorem envOf_absent {s : Store} {p : Path} (h : s (Path.display p) = none) :
    envOf s p = none := by
  unfold envOf
  rw [infoM_of_absent h]

theorem append_singleton_inj {q r : List String} {a b : String}
    (h : q ++ [a] = r ++ [b]) : q = r ∧ a = b := by
  have h1 : q = r := by
    have := congrArg List.dropLast h
    rwa [List.dropLast_concat, List.dropLast_concat] at this
  have h2 : some a = some b := by
    have := congrArg List.getLast? h
    rwa [List.getLast?_concat, List.getLast?_concat] at this
  exact ⟨h1, Option.some_inj.mp h2⟩

theorem head_of_getLast {p : Path} {name : String} (h : p.getLast? = some name) :
    p = p.dropLast ++ [name] := by
  have hpop : Path.pop p = (p.dropLast, some name) := by simp [Path.pop, h]
  exact (eq_append_pop hpop).1

theorem ne_nil_of_head {q : Path} (h : q.head? = some "@root") : q ≠ [] := by
  rintro rfl
  simp at h

/-- `put` preserves the tree invariant (valid path, positive schema
version). -/
theorem inv_put {s s' : Store} {ver : Nat} {sv : Except Err Value} {p : Path}
    {w : Bool} (inv : Inv s) (hvp : ValidPath p) (hver : 0 < ver)
    (h : putM ver sv p s = .ok (s', w)) : Inv s' := by
  rcases putM_ok_cases h with
    ⟨ex, payload, hi, hsv, rfl, hw⟩ | ⟨par, payload, name, hi, hn, hpar, hsv, rfl, hw⟩
  · -- overwrite case: s' = putUnsafeVersion p ⟨ex.children, ver, payload⟩ s
    have hpres : (s (Path.display p)).isSome = true := infoM_some_key hi
    have hrootp : p.head? = some "@root" := present_head_root inv hvp hpres
    have hexgood : GoodEnv ex := infoM_good inv hi
    have hexenv : envOf s p = some ex := envOf_of_infoM hi
    have hnewgood : GoodEnv ⟨ex.children, ver, payload⟩ :=
      ⟨hver, hexgood.2.1, hexgood.2.2⟩
    have hs'p : envOf (putUnsafeVersion p ⟨ex.children, ver, payload⟩ s) p
        = some ⟨ex.children, ver, payload⟩ :=
      envOf_of_good (putUV_same ..) hexgood.2.1
    constructor
    · intro k hk
      by_cases hkp : k = Path.display p
      · exact ⟨p, hvp, hrootp, hkp.symm⟩
      · rw [putUV_other _ _ hkp] at hk
        exact inv.keys k hk
    · intro k v hk
      by_cases hkp : k = Path.display p
      · subst hkp
        rw [putUV_same] at hk
        exact ⟨_, (Option.some_inj.mp hk).symm, hnewgood⟩
      · rw [putUV_other _ _ hkp] at hk
        exact inv.shape k v hk
    · exact putUV_presence inv.root
    · intro q n hvq hvn hne hq
      have hvqn := validPath_append hvq hvn
      by_cases hdk : Path.display (q ++ [n]) = Path.display p
      · have heqp : q ++ [n] = p := display_eq_root_path hvqn hvp hrootp hdk
        have hqpres : (s (Path.display (q ++ [n]))).isSome = true := by
          rw [hdk]; exact hpres
        obtain ⟨d, henv, hmem⟩ := inv.par q n hvq hvn hne hqpres
        have hqnep : q ≠ p := by
          rintro rfl
          have := congrArg List.length heqp
          simp at this
        refine ⟨d, ?_, hmem⟩
        rw [envOf_congr (putUV_other _ _ (display_ne hvq hvp hrootp hqnep))]
        exact henv
      · rw [putUV_other _ _ hdk] at hq
        obtain ⟨d, henv, hmem⟩ := inv.par q n hvq hvn hne hq
        by_cases hdq : Path.display q = Path.display p
        · have heqq : q = p := display_eq_root_path hvq hvp hrootp hdq
          subst heqq
          rw [hexenv] at henv
          have hd := Option.some_inj.mp henv
          subst hd
          exact ⟨⟨ex.children, ver, payload⟩, hs'p, hmem⟩
        · refine ⟨d, ?_, hmem⟩
          rw [envOf_congr (putUV_other _ _ hdq)]
          exact henv
    · intro q d hvq henv n hn
      by_cases hdq : Path.display q = Path.display p
      · have heqq : q = p := display_eq_root_path hvq hvp hrootp hdq
        subst heqq
        rw [hs'p] at henv
        cases henv
        have := inv.chl q ex hvq hexenv n hn
        exact putUV_presence this
      · rw [envOf_congr (putUV_other _ _ hdq)] at henv
        exact putUV_presence (inv.chl q d hvq henv n hn)
  · -- new-envelope case
    have habs : s (Path.display p) = none := infoM_ok_none_absent hi
    have hp : p = p.dropLast ++ [name] := head_of_getLast hn
    have hvparent : ValidPath p.dropLast := validPath_dropLast hvp
    have hparpres : (s (Path.display p.dropLast)).isSome = true := infoM_some_key hpar
    have hrootpar : p.dropLast.head? = some "@root" :=
      present_head_root inv hvparent hparpres
    have hparne : p.dropLast ≠ [] := ne_nil_of_head hrootpar
    have hrootp : p.head? = some "@root" := by
      rw [hp, head_append_singleton hparne]
      exact hrootpar
    have hvname : ValidName name := hvp name (by rw [hp]; simp)
    have hpargood : GoodEnv par := infoM_good inv hpar
    have hparenv : envOf s p.dropLast = some par := envOf_of_infoM hpar
    have hne_pp : Path.display p ≠ Path.display p.dropLast := by
      intro hcontra
      rw [← hcontra] at hparpres
      rw [habs] at hparpres
      simp at hparpres
    set par2 : DataWrapperV1 := { par with children := insertSet par.children name }
      with hpar2
    have hpar2good : GoodEnv par2 := by
      refine ⟨hpargood.1, insertSet_nodup hpargood.2.1, ?_⟩
      intro m hm
      rcases mem_insertSet.mp hm with hm | rfl
      · exact hpargood.2.2 m hm
      · exact hvname
    set s1 := putUnsafeVersion p.dropLast par2 s with hs1
    set snew := putUnsafeVersion p ⟨[], ver, payload⟩ s1 with hsnew
    have hlook_p : snew (Path.display p) = some (VersionWrapper.save ⟨[], ver, payload⟩) :=
      putUV_same ..
    have henv_p : envOf snew p = some ⟨[], ver, payload⟩ :=
      envOf_of_good hlook_p List.nodup_nil
    have hlook_parent : snew (Path.display p.dropLast)
        = some (VersionWrapper.save par2) := by
      rw [hsnew, hs1, putUV_other _ _ (Ne.symm hne_pp)]
      exact putUV_same ..
    have henv_parent : envOf snew p.dropLast = some par2 :=
      envOf_of_good hlook_parent hpar2good.2.1
    have hother : ∀ k, k ≠ Path.display p → k ≠ Path.display p.dropLast →
        snew k = s k := by
      intro k h1 h2
      rw [hsnew, hs1, putUV_other _ _ h1, putUV_other _ _ h2]
    constructor
    · intro k hk
      by_cases h1 : k = Path.display p
      · exact ⟨p, hvp, hrootp, h1.symm⟩
      · by_cases h2 : k = Path.display p.dropLast
        · exact ⟨p.dropLast, hvparent, hrootpar, h2.symm⟩
        · rw [hother k h1 h2] at hk
          exact inv.keys k hk
    · intro k v hk
      by_cases h1 : k = Path.display p
      · subst h1
        rw [hlook_p] at hk
        exact ⟨_, (Option.some_inj.mp hk).symm, hver, List.nodup_nil, by simp⟩
      · by_cases h2 : k = Path.display p.dropLast
        · subst h2
          rw [hlook_parent] at hk
          exact ⟨par2, (Option.some_inj.mp hk).symm, hpar2good⟩
        · rw [hother k h1 h2] at hk
          exact inv.shape k v hk
    · exact putUV_presence (putUV_presence inv.root)
    · intro q n hvq hvn hne hq
      have hvqn := validPath_append hvq hvn
      by_cases h1 : Path.display (q ++ [n]) = Path.display p
      · -- the newly created path
        have heqp : q ++ [n] = p := display_eq_root_path hvqn hvp hrootp h1
        rw [hp] at heqp
        obtain ⟨rfl, rfl⟩ := append_singleton_inj heqp
        exact ⟨par2, henv_parent, self_mem_insertSet⟩
      · by_cases h2 : Path.display (q ++ [n]) = Path.display p.dropLast
        · have heqpar : q ++ [n] = p.dropLast :=
            display_eq_root_path hvqn hvparent hrootpar h2
          have hqpres : (s (Path.display (q ++ [n]))).isSome = true := by
            rw [h2]; exact hparpres
          obtain ⟨d, henv, hmem⟩ := inv.par q n hvq hvn hne hqpres
          have hqnep : Path.display q ≠ Path.display p := by
            intro hcontra
            have heqq : q = p := display_eq_root_path hvq hvp hrootp hcontra
            subst heqq
            have := congrArg List.length heqpar
            rw [hp] at this
            simp [List.length_dropLast] at this
          by_cases h3 : Path.display q = Path.display p.dropLast
          · have heqq : q = p.dropLast := display_eq_root_path hvq hvparent hrootpar h3
            subst heqq
            rw [hparenv] at henv
            cases henv
            exact ⟨par2, henv_parent, mem_insertSet.mpr (Or.inl hmem)⟩
          · refine ⟨d, ?_, hmem⟩
            rw [envOf_congr (hother _ hqnep h3)]
            exact henv
        · rw [hother _ h1 h2] at hq
          obtain ⟨d, henv, hmem⟩ := inv.par q n hvq hvn hne hq
          by_cases h3 : Path.display q = Path.display p
          · exfalso
            have hqk := envOf_isSome_key henv
            rw [h3, habs] at hqk
            simp at hqk
          · by_cases h4 : Path.display q = Path.display p.dropLast
            · have heqq : q = p.dropLast :=
                display_eq_root_path hvq hvparent hrootpar h4
              subst heqq
              rw [hparenv] at henv
              cases henv
              exact ⟨par2, henv_parent, mem_insertSet.mpr (Or.inl hmem)⟩
            · refine ⟨d, ?_, hmem⟩
              rw [envOf_congr (hother _ h3 h4)]
              exact henv
    · intro q d hvq henv n hn
      by_cases h1 : Path.display q = Path.display p
      · have heqq : q = p := display_eq_root_path hvq hvp hrootp h1
        subst heqq
        rw [henv_p] at henv
        cases henv
        simp at hn
      · by_cases h2 : Path.display q = Path.display p.dropLast
        · have heqq : q = p.dropLast := display_eq_root_path hvq hvparent hrootpar h2
          subst heqq
          rw [henv_parent] at henv
          cases henv
          rcases mem_insertSet.mp hn with hm | rfl
          · exact putUV_presence (putUV_presence (inv.chl _ par hvq hparenv n hm))
          · have hkey : Path.display (List.dropLast p ++ [n]) = Path.display p := by
              rw [← hp]
            rw [hkey, hlook_p]
            rfl
        · rw [envOf_congr (hother _ h1 h2)] at henv
          exact putUV_presence (putUV_presence (inv.chl q d hvq henv n hn))

/-- `del` preserves the tree invariant (valid path). -/
theorem inv_del {s s' : Store} {p : Path} (inv : Inv s) (hvp : ValidPath p)
    (h : delM p s = .ok s') : Inv s' := by
  obtain ⟨inf, par, name, hi, hce, hn, hpar, rfl⟩ := delM_ok_cases h
  have hpres : (s (Path.display p)).isSome = true := infoM_some_key hi
  have hrootp : p.head? = some "@root" := present_head_root inv hvp hpres
  have hinfenv : envOf s p = some inf := envOf_of_infoM hi
  have hp : p = p.dropLast ++ [name] := head_of_getLast hn
  have hvparent : ValidPath p.dropLast := validPath_dropLast hvp
  have hparpres : (s (Path.display p.dropLast)).isSome = true := infoM_some_key hpar
  have hrootpar : p.dropLast.head? = some "@root" :=
    present_head_root inv hvparent hparpres
  have hparne : p.dropLast ≠ [] := ne_nil_of_head hrootpar
  have hvname : ValidName name := hvp name (by rw [hp]; simp)
  have hpargood : GoodEnv par := infoM_good inv hpar
  have hparenv : envOf s p.dropLast = some par := envOf_of_infoM hpar
  have hpnepar : p ≠ p.dropLast := by
    intro hcontra
    have := congrArg List.length hcontra
    rw [hp] at this
    simp [List.length_dropLast] at this
  have hne_pp : Path.display p ≠ Path.display p.dropLast :=
    display_ne hvp hvparent hrootpar hpnepar
  set par2 : DataWrapperV1 := { par with children := par.children.erase name }
    with hpar2
  have hpar2good : GoodEnv par2 :=
    ⟨hpargood.1, List.Nodup.erase name hpargood.2.1,
      fun m hm => hpargood.2.2 m (List.erase_subset name par.children hm)⟩
  set s1 := putUnsafeVersion p.dropLast par2 s with hs1
  set snew := s1.del (Path.display p) with hsnew
  have hlook_p : snew (Path.display p) = none := by
    rw [hsnew]
    exact Store.del_same s1 (Path.display p)
  have hlook_parent : snew (Path.display p.dropLast)
      = some (VersionWrapper.save par2) := by
    rw [hsnew, hs1, Store.del_other _ (Ne.symm hne_pp), putUV_same]
  have henv_parent : envOf snew p.dropLast = some par2 :=
    envOf_of_good hlook_parent hpar2good.2.1
  have hother : ∀ k, k ≠ Path.display p → k ≠ Path.display p.dropLast →
      snew k = s k := by
    intro k h1 h2
    rw [hsnew, hs1, Store.del_other _ h1, putUV_other _ _ h2]
  constructor
  · intro k hk
    by_cases h1 : k = Path.display p
    · subst h1
      rw [hlook_p] at hk
      simp at hk
    · by_cases h2 : k = Path.display p.dropLast
      · exact ⟨p.dropLast, hvparent, hrootpar, h2.symm⟩
      · rw [hother k h1 h2] at hk
        exact inv.keys k hk
  · intro k v hk
    by_cases h1 : k = Path.display p
    · subst h1
      rw [hlook_p] at hk
      simp at hk
    · by_cases h2 : k = Path.display p.dropLast
      · subst h2
        rw [hlook_parent] at hk
        exact ⟨par2, (Option.some_inj.mp hk).symm, hpar2good⟩
      · rw [hother k h1 h2] at hk
        exact inv.shape k v hk
  · have hrootnep : ("@root" : String) ≠ Path.display p := by
      intro hcontra
      have : p = rootPath := display_eq_root_path hvp validPath_rootPath rfl
        (by rw [← hcontra, display_rootPath])
      subst this
      exact hparne rfl
    by_cases h2 : ("@root" : String) = Path.display p.dropLast
    · rw [h2, hlook_parent]
      rfl
    · rw [hother _ hrootnep h2]
      exact inv.root
  · intro q n hvq hvn hne hq
    have hvqn := validPath_append hvq hvn
    have hkq : Path.display (q ++ [n]) ≠ Path.display p := by
      intro hcontra
      rw [hcontra, hlook_p] at hq
      simp at hq
    have hqnp : q ++ [n] ≠ p := fun hcontra => hkq (by rw [hcontra])
    by_cases h2 : Path.display (q ++ [n]) = Path.display p.dropLast
    · have heqpar : q ++ [n] = p.dropLast :=
        display_eq_root_path hvqn hvparent hrootpar h2
      have hqpres : (s (Path.display (q ++ [n]))).isSome = true := by
        rw [h2]; exact hparpres
      obtain ⟨d, henv, hmem⟩ := inv.par q n hvq hvn hne hqpres
      have hqnep : Path.display q ≠ Path.display p := by
        intro hcontra
        have heqq : q = p := display_eq_root_path hvq hvp hrootp hcontra
        subst heqq
        have := congrArg List.length heqpar
        rw [hp] at this
        simp [List.length_dropLast] at this
      have hqnepar : Path.display q ≠ Path.display p.dropLast := by
        intro hcontra
        have heqq : q = p.dropLast := display_eq_root_path hvq hvparent hrootpar hcontra
        rw [← heqpar] at heqq
        have := congrArg List.length heqq
        simp at this
      refine ⟨d, ?_, hmem⟩
      rw [envOf_congr (hother _ hqnep hqnepar)]
      exact henv
    · rw [hother _ hkq h2] at hq
      obtain ⟨d, henv, hmem⟩ := inv.par q n hvq hvn hne hq
      by_cases h3 : Path.display q = Path.display p
      · exfalso
        have heqq : q = p := display_eq_root_path hvq hvp hrootp h3
        subst heqq
        rw [hinfenv] at henv
        have hd := Option.some_inj.mp henv
        subst hd
        rw [hce] at hmem
        simp at hmem
      · by_cases h4 : Path.display q = Path.display p.dropLast
        · have heqq : q = p.dropLast := display_eq_root_path hvq hvparent hrootpar h4
          subst heqq
          rw [hparenv] at henv
          have hd := Option.some_inj.mp henv
          subst hd
          have hnname : n ≠ name := by
            intro hcontra
            subst hcontra
            exact hqnp hp.symm
          exact ⟨par2, henv_parent, (List.mem_erase_of_ne hnname).mpr hmem⟩
        · refine ⟨d, ?_, hmem⟩
          rw [envOf_congr (hother _ h3 h4)]
          exact henv
  · intro q d hvq henv n hn
    by_cases h1 : Path.display q = Path.display p
    · exfalso
      have : envOf snew q = none := envOf_absent (by rw [h1, hlook_p])
      rw [this] at henv
      simp at henv
    · by_cases h2 : Path.display q = Path.display p.dropLast
      · have heqq : q = p.dropLast := display_eq_root_path hvq hvparent hrootpar h2
        subst heqq
        rw [henv_parent] at henv
        have hd := Option.some_inj.mp henv
        subst hd
        have hmem := (List.Nodup.mem_erase_iff hpargood.2.1).mp hn
        have hpres' := inv.chl _ par hvq hparenv n hmem.2
        have hkne1 : Path.display (List.dropLast p ++ [n]) ≠ Path.display p := by
          intro hcontra
          have heq2 : List.dropLast p ++ [n] = p :=
            display_eq_root_path (validPath_append hvq (hpargood.2.2 n hmem.2))
              hvp hrootp hcontra
          rw [hp] at heq2
          exact hmem.1 (append_singleton_inj heq2).2
        have hkne2 : Path.display (List.dropLast p ++ [n])
            ≠ Path.display (List.dropLast p) := by
          intro hcontra
          have heq2 : List.dropLast p ++ [n] = List.dropLast p :=
            display_eq_root_path (validPath_append hvq (hpargood.2.2 n hmem.2))
              hvparent hrootpar hcontra
          have := congrArg List.length heq2
          simp at this
        rw [hother _ hkne1 hkne2]
        exact hpres'
      · rw [envOf_congr (hother _ h1 h2)] at henv
        have hpres' := inv.chl q d hvq henv n hn
        by_cases hk2 : Path.display (q ++ [n]) = Path.display p.dropLast
        · rw [hk2, hlook_parent]
          rfl
        · have hkne1 : Path.display (q ++ [n]) ≠ Path.display p := by
            intro hcontra
            have heq2 : q ++ [n] = p := display_eq_root_path
              (validPath_append hvq (envOf_good inv henv |>.2.2 n hn)) hvp hrootp hcontra
            rw [hp] at heq2
            exact h2 (by rw [(append_singleton_inj heq2).1])
          rw [hother _ hkne1 hk2]
          exact hpres'

/-! ## Reachable stores and claim C1 -/

/-- Stores reachable from `connect` through successful `put`/`del`
operations on data-model paths (components free of the separator `/`,
spec §3) with positive schema versions (spec §4.C: `VERSION > 0`). -/
inductive Reach : Store → Prop where
  | init : Reach s0
  | put {s s' : Store} {ver : Nat} {sv : Except Err Value} {p : Path} {w : Bool} :
      Reach s → ValidPath p → 0 < ver → putM ver sv p s = .ok (s', w) → Reach s'
  | del {s s' : Store} {p : Path} :
      Reach s → ValidPath p → delM p s = .ok s' → Reach s'

theorem inv_reach {s : Store} (h : Reach s) : Inv s := by
  induction h with
  | init => exact inv_s0
  | put _ hv hver hput ih => exact inv_put ih hv hver hput
  | del _ hv hdel ih => exact inv_del ih hv hdel

/-- The engine holds a key for the path. -/
def keyPresent (s : Store) (p : Path) : Prop :=
  (s (Path.display p)).isSome = true

theorem splitSlash_no_slash {cs : List Char} (h : '/' ∉ cs) :
    splitSlash cs = [cs] := by
  induction cs with
  | nil => rfl
  | cons c rest ih =>
    unfold splitSlash
    have hc : ¬c = '/' := fun hcontra => h (hcontra ▸ List.mem_cons_self c rest)
    rw [if_neg hc, ih (fun hm => h (List.mem_cons_of_mem c hm))]

theorem add_valid_name (p : Path) {n : String} (h : ValidName n) :
    Path.add p n = p ++ [n] := by
  unfold Path.add
  rw [splitSlash_no_slash h]
  rfl

/-- C1: after `connect`, for every sequence of successful `put`/`del`
operations and every data-model path `P` whose key is present: `P` starts
at `@root` (I1); a non-root `P` decomposes as `parent ++ [name]` with the
parent's envelope present and listing `name` (I2); every name in `P`'s
children set points at a present path `P + n` (I3); the stored version is
positive (I5); the root key stays present; and `del` succeeds only on an
envelope whose children set is empty (I4). -/
theorem C1_invariants {s : Store} (hs : Reach s) {p : Path} (hv : ValidPath p)
    (hp : keyPresent s p) :
    p.head? = some "@root"
    ∧ (p ≠ rootPath → ∃ q n d, p = q ++ [n] ∧ envOf s q = some d
        ∧ n ∈ d.children ∧ keyPresent s q)
    ∧ (∀ d, envOf s p = some d →
        (∀ n ∈ d.children, keyPresent s (Path.add p n)) ∧ 0 < d.version)
    ∧ keyPresent s rootPath
    ∧ (∀ s', delM p s = .ok s' → ∃ d, envOf s p = some d ∧ d.children = []) := by
  have inv := inv_reach hs
  have hroot : p.head? = some "@root" := present_head_root inv hv hp
  refine ⟨hroot, ?_, ?_, ?_, ?_⟩
  · intro hnr
    have hne : p ≠ [] := ne_nil_of_head hroot
    have hlast : p.getLast? = some (p.getLast hne) := List.getLast?_eq_getLast p hne
    have hdecomp : p = p.dropLast ++ [p.getLast hne] := head_of_getLast hlast
    have hvn : ValidName (p.getLast hne) := hv _ (List.getLast_mem hne)
    have hne2 : p.dropLast ++ [p.getLast hne] ≠ rootPath := by rw [← hdecomp]; exact hnr
    have hp2 : (s (Path.display (p.dropLast ++ [p.getLast hne]))).isSome = true := by
      rw [← hdecomp]; exact hp
    obtain ⟨d, henv, hmem⟩ := inv.par p.dropLast (p.getLast hne)
      (validPath_dropLast hv) hvn hne2 hp2
    exact ⟨p.dropLast, p.getLast hne, d, hdecomp, henv, hmem, envOf_isSome_key henv⟩
  · intro d henv
    have hgood := envOf_good inv henv
    refine ⟨?_, hgood.1⟩
    intro n hn
    have := inv.chl p d hv henv n hn
    unfold keyPresent
    rw [add_valid_name p (hgood.2.2 n hn)]
    exact this
  · unfold keyPresent
    rw [display_rootPath]
    exact inv.root
  · intro s' hdel
    obtain ⟨inf, _, _, hi, hce, _⟩ := delM_ok_cases hdel
    exact ⟨inf, envOf_of_infoM hi, hce⟩

/-- Witness for C1 at the bootstrapped store and the root path. -/
theorem C1_invariants_witness :
    (rootPath : Path).head? = some "@root"
    ∧ ((rootPath : Path) ≠ rootPath → ∃ q n d, rootPath = q ++ [n]
        ∧ envOf s0 q = some d ∧ n ∈ d.children ∧ keyPresent s0 q)
    ∧ (∀ d, envOf s0 rootPath = some d →
        (∀ n ∈ d.children, keyPresent s0 (Path.add rootPath n)) ∧ 0 < d.version)
    ∧ keyPresent s0 rootPath
    ∧ (∀ s', delM rootPath s0 = .ok s' →
        ∃ d, envOf s0 rootPath = some d ∧ d.children = []) :=
  C1_invariants Reach.init validPath_rootPath (by rfl)

/-- Example single-version schema over `Nat` (prev/next absent), in the
style of the repository's built-in `u64` schema: used to exercise the
theorems on concrete inputs. -/
def soloChainW : Chain Nat where
  prevV := fun _ => 0
  nextV := fun _ => 0
  loadF := fun _ v =>
    match v with
    | .uint n => .ok n
    | _ => .error (.msg "Unable to load")
  saveF := fun _ n => .ok (.uint n)
  upgradeF := fun _ _ => .error (.msg "This is a first version, so this method should not be called")
  downgradeF := fun _ _ => .error (.msg "This is a last version, so this method should not be called")

/-- Example fully linked chain over `Nat` (every version adjacent to its
neighbours), in the style of the repository's `Test1`/`Test2` pair: used to
exercise the theorems on concrete inputs. -/
def stepChainW : Chain Nat where
  prevV := fun t => t - 1
  nextV := fun t => t + 1
  loadF := fun _ v =>
    match v with
    | .uint n => .ok n
    | _ => .error (.msg "Unable to load")
  saveF := fun _ n => .ok (.uint n)
  upgradeF := fun _ n => .ok (n * 2)
  downgradeF := fun _ n => .ok (n / 2)

/-! ## Claims C5, C6, C7, C10 -/

theorem infoM_of_envOf {s : Store} {p : Path} {d : DataWrapperV1}
    (h : envOf s p = some d) : infoM s p = .ok (some d) := by
  unfold envOf at h
  cases hi : infoM s p with
  | error e => rw [hi] at h; simp at h
  | ok o =>
    rw [hi] at h
    cases o with
    | none => simp at h
    | some d' => rw [Option.some_inj.mp h]

theorem delM_absent {s : Store} {p : Path} (h : s (Path.display p) = none) :
    delM p s = .error (.optNone 226) := by
  unfold delM
  rw [infoM_of_absent h]

theorem delM_haschildren {s : Store} {p : Path} {d : DataWrapperV1}
    (hi : infoM s p = .ok (some d)) (hc : d.children ≠ []) :
    delM p s = .error (.msg "Cannot del file with children") := by
  unfold delM
  rw [hi]
  have hfalse : d.children.isEmpty = false := by
    cases hl : d.children with
    | nil => exact absurd hl hc
    | cons a l => rfl
  simp [hfalse]

/-- C5: `del(P)` fails NotFound when no envelope is stored at `P`, fails
HasChildren when the stored children set is non-empty, and every failed
delete aborts its transaction, so the committed store is the identical
pre-state. -/
theorem C5_del_failures (p : Path) (s : Store) :
    (s (Path.display p) = none → StorageDel p s = (s, some (Err.optNone 226)))
    ∧ (∀ d, envOf s p = some d → d.children ≠ [] →
        StorageDel p s = (s, some (.msg "Cannot del file with children")))
    ∧ (∀ e, delM p s = .error e → StorageDel p s = (s, some e)) := by
  refine ⟨?_, ?_, ?_⟩
  · intro h
    unfold StorageDel
    rw [delM_absent h]
  · intro d henv hc
    unfold StorageDel
    rw [delM_haschildren (infoM_of_envOf henv) hc]
  · intro e h
    unfold StorageDel
    rw [h]

/-- Witness for C5: deleting a missing path from the bootstrapped store
fails and leaves it unchanged. -/
theorem C5_del_failures_witness :
    StorageDel ["@root", "x"] s0 = (s0, some (Err.optNone 226)) :=
  (C5_del_failures ["@root", "x"] s0).1 rfl

/-- C6: `put` on a fresh path with an absent parent fails `NoParent`
naming the parent path and commits nothing; with a present parent it links
the new name into the parent's children and writes a fresh envelope with
empty children, `stored_version = T::VERSION` and the saved payload. -/
theorem C6_put_new (ver : Nat) (sv : Except Err Value) (pl : Value) (q : Path)
    (n : String) (s : Store) :
    (s (Path.display (q ++ [n])) = none → s (Path.display q) = none →
      putM ver sv (q ++ [n]) s = .error (.msg ("No parent '" ++ Path.display q
          ++ "' found for '" ++ Path.display (q ++ [n]) ++ "'"))
      ∧ StoragePut ver sv (q ++ [n]) s = (s, some (.msg ("No parent '"
          ++ Path.display q ++ "' found for '" ++ Path.display (q ++ [n]) ++ "'"))))
    ∧ (∀ d, s (Path.display (q ++ [n])) = none → envOf s q = some d →
        putM ver (.ok pl) (q ++ [n]) s
          = .ok (putUnsafeVersion (q ++ [n]) ⟨[], ver, pl⟩
              (putUnsafeVersion q { d with children := insertSet d.children n } s),
            false)) := by
  constructor
  · intro habs hpabs
    have hput : putM ver sv (q ++ [n]) s = .error (.msg ("No parent '"
        ++ Path.display q ++ "' found for '" ++ Path.display (q ++ [n]) ++ "'")) := by
      unfold putM
      simp only [infoM_of_absent habs, pop_append, infoM_of_absent hpabs]
    refine ⟨hput, ?_⟩
    unfold StoragePut
    rw [hput]
  · intro d habs henv
    unfold putM
    simp only [infoM_of_absent habs, pop_append, infoM_of_envOf henv]

/-- Witness for C6: creating `@root/absent/a` fails `NoParent`, while
creating `@root/test` under the root succeeds and links the child. -/
theorem C6_put_new_witness :
    putM 1 (.ok (.uint 5)) (["@root", "absent"] ++ ["a"]) s0
      = .error (.msg ("No parent '" ++ Path.display ["@root", "absent"]
          ++ "' found for '" ++ Path.display (["@root", "absent"] ++ ["a"]) ++ "'")) :=
  ((C6_put_new 1 (.ok (.uint 5)) (.uint 5) ["@root", "absent"] "a" s0).1 rfl rfl).1

/-- C7: `put` on an existing envelope `ex` overwrites in place, keeping
`ex.children`, setting the stored version to `T::VERSION` and the payload
to the new save; no other key (in particular not the parent's) changes, and
the "overwriting newer version with older" warning fires exactly when
`T::VERSION < ex.stored_version`. -/
theorem C7_put_overwrite (ver : Nat) (pl : Value) (p : Path) (s : Store)
    (ex : DataWrapperV1) (hex : envOf s p = some ex) :
    putM ver (.ok pl) p s
      = .ok (putUnsafeVersion p ⟨ex.children, ver, pl⟩ s, decide (ver < ex.version))
    ∧ (∀ k, k ≠ Path.display p →
        (putUnsafeVersion p ⟨ex.children, ver, pl⟩ s) k = s k)
    ∧ (decide (ver < ex.version) = true ↔ ver < ex.version) := by
  refine ⟨?_, ?_, decide_eq_true_iff⟩
  · unfold putM
    rw [infoM_of_envOf hex]
  · intro k hk
    exact putUV_other _ _ hk

/-- Witness for C7: overwriting the root envelope (version 1) with a
version-1 value keeps its children, rewrites the payload and does not
warn. -/
theorem C7_put_overwrite_witness :
    putM 1 (.ok (.uint 9)) rootPath s0
      = .ok (putUnsafeVersion rootPath ⟨[], 1, .uint 9⟩ s0, decide (1 < 1)) :=
  (C7_put_overwrite 1 (.uint 9) rootPath s0 ⟨[], 1, .nil⟩ (by rfl)).1

/-- C10: `get`, `children` and the underlying `info` lookup return
`Ok(None)` exactly when the engine has no key for the path; present but
unparsable or unresolvable bytes produce an error, never `None`. -/
theorem C10_none_iff {α : Type} (c : Chain α) (t : Nat) (s : Store) (p : Path) :
    (infoM s p = .ok none ↔ s (Path.display p) = none)
    ∧ (childrenM s p = .ok none ↔ s (Path.display p) = none)
    ∧ (getM c t s p = .ok none ↔ s (Path.display p) = none) := by
  have hinfo : infoM s p = .ok none ↔ s (Path.display p) = none :=
    ⟨infoM_ok_none_absent, infoM_of_absent⟩
  refine ⟨hinfo, hinfo, ?_⟩
  constructor
  · intro h
    unfold getM at h
    cases hi : infoM s p with
    | error e => rw [hi] at h; simp at h
    | ok o =>
      rw [hi] at h
      cases o with
      | none => exact hinfo.mp hi
      | some dw =>
        exfalso
        cases hl : loadRes c t dw.version dw.data with
        | error e => simp [hl] at h
        | ok v => simp [hl] at h
  · intro h
    unfold getM
    rw [infoM_of_absent h]

/-- Witness for C10: at the bootstrapped store, a missing path yields
`Ok(None)` from `get`. -/
theorem C10_none_iff_witness :
    getM soloChainW 1 s0 ["@root", "x"] = .ok none :=
  ((C10_none_iff soloChainW 1 s0 ["@root", "x"]).2.2).mpr rfl

/-! ## Claim C9: path composition -/

theorem splitSlash_ne_nil (cs : List Char) : splitSlash cs ≠ [] := by
  induction cs with
  | nil => simp [splitSlash]
  | cons c rest ih =>
    unfold splitSlash
    by_cases hc : c = '/'
    · rw [if_pos hc]; simp
    · rw [if_neg hc]
      cases h : splitSlash rest with
      | nil => simp
      | cons s ss => simp

theorem splitSlash_no_slash_mem (cs : List Char) :
    ∀ piece ∈ splitSlash cs, '/' ∉ piece := by
  induction cs with
  | nil =>
    intro piece hp
    simp [splitSlash] at hp
    simp [hp]
  | cons c rest ih =>
    intro piece hp
    unfold splitSlash at hp
    by_cases hc : c = '/'
    · rw [if_pos hc] at hp
      rcases List.mem_cons.mp hp with rfl | hmem
      · simp
      · exact ih piece hmem
    · rw [if_neg hc] at hp
      cases h : splitSlash rest with
      | nil => exact absurd h (splitSlash_ne_nil rest)
      | cons s ss =>
        rw [h] at hp
        rcases List.mem_cons.mp hp with rfl | hmem
        · intro hm
          rcases List.mem_cons.mp hm with heq | hmem2
          · exact hc heq.symm
          · exact ih s (h ▸ List.mem_cons_self s ss) hmem2
        · exact ih piece (h ▸ List.mem_cons_of_mem s hmem)

theorem sepJoin_splitSlash (cs : List Char) :
    sepJoin ((splitSlash cs).map (fun l => String.mk l)) = String.mk cs := by
  induction cs with
  | nil => rfl
  | cons c rest ih =>
    unfold splitSlash
    by_cases hc : c = '/'
    · rw [if_pos hc]
      subst hc
      have hne : (splitSlash rest).map (fun l => String.mk l) ≠ [] := by
        intro hcontra
        exact splitSlash_ne_nil rest (List.map_eq_nil.mp hcontra)
      apply String.ext
      rw [List.map_cons, sepJoin_data_cons _ _ hne, ih]
      rfl
    · rw [if_neg hc]
      cases h : splitSlash rest with
      | nil => exact absurd h (splitSlash_ne_nil rest)
      | cons s ss =>
        rw [h] at ih
        cases ss with
        | nil =>
          apply String.ext
          simp only [List.map_cons, List.map_nil]
          have hs : sepJoin [String.mk s] = String.mk s := rfl
          have hrest : String.mk s = String.mk rest := by
            simpa using ih
          show (String.mk (c :: s)).data = (String.mk (c :: rest)).data
          have : s = rest := congrArg String.data hrest
          rw [this]
        | cons s2 ss2 =>
          apply String.ext
          rw [List.map_cons]
          rw [sepJoin_data_cons _ _ (by simp)]
          have ihd := congrArg String.data ih
          rw [List.map_cons, sepJoin_data_cons _ _ (by simp)] at ihd
          show (c :: s) ++ '/' :: (sepJoin ((s2 :: ss2).map (fun l => String.mk l))).data
            = c :: rest
          rw [List.cons_append]
          have ihd2 : s ++ '/' :: (sepJoin ((s2 :: ss2).map (fun l => String.mk l))).data
              = rest := ihd
          rw [ihd2]

/-- C9: composing a path with a displayable suffix splits the suffix's
display form on `/` and appends every segment, in order, as a new
component; the appended segments are exactly the separator-free strings
whose `/`-join is the suffix, and empty segments — including the one
arising from an empty suffix — are retained as empty-string names. -/
theorem C9_path_compose (p : Path) (suffix : String) :
    (∃ segs : List String, Path.add p suffix = p ++ segs ∧ segs ≠ []
      ∧ (∀ c ∈ segs, ValidName c) ∧ sepJoin segs = suffix)
    ∧ Path.add p "" = p ++ [""] := by
  constructor
  · refine ⟨(splitSlash suffix.data).map (fun l => String.mk l), rfl, ?_, ?_, ?_⟩
    · intro hcontra
      exact splitSlash_ne_nil suffix.data (List.map_eq_nil.mp hcontra)
    · intro c hc
      obtain ⟨piece, hpiece, rfl⟩ := List.mem_map.mp hc
      exact splitSlash_no_slash_mem suffix.data piece hpiece
    · exact sepJoin_splitSlash suffix.data
  · rfl

/-! ## Claim C2: round trip at the same version -/

/-- A successful `put` leaves at the path's key a wrapped envelope carrying
the schema version and the saved payload. -/
theorem putM_stores {ver : Nat} {sv : Except Err Value} {p : Path} {s s' : Store}
    {w : Bool} (h : putM ver sv p s = .ok (s', w)) :
    ∃ ch payload, sv = .ok payload
      ∧ s' (Path.display p) = some (VersionWrapper.save ⟨ch, ver, payload⟩) := by
  rcases putM_ok_cases h with
    ⟨ex, payload, _, hsv, rfl, _⟩ | ⟨par, payload, name, _, _, _, hsv, rfl, _⟩
  · exact ⟨ex.children, payload, hsv, putUV_same ..⟩
  · exact ⟨[], payload, hsv, putUV_same ..⟩

theorem loadRes_refl {α : Type} (c : Chain α) (t : Nat) (val : Value) :
    loadRes c t t val = c.loadF t val := by
  unfold loadRes
  have h1 : chainFuel t t = 1 := by simp [chainFuel, dist]
  rw [h1]
  unfold loadChain
  rw [if_pos rfl]

/-- C2: for a schema type with absent `PrevVersion` and `NextVersion` whose
`load` inverts its `save` at `v`, a successful `put` followed by `get` at
the same type returns `Some v`. -/
theorem C2_roundtrip {α : Type} (c : Chain α) (t : Nat) (v : α) (pv : Value)
    (p : Path) (s s' : Store) (w : Bool)
    (hprev : c.prevV t = 0) (hnext : c.nextV t = 0)
    (hsave : c.saveF t v = .ok pv) (hload : c.loadF t pv = .ok v)
    (hput : putM t (c.saveF t v) p s = .ok (s', w)) :
    getM c t s' p = .ok (some v) := by
  obtain ⟨ch, payload, hsv, hkey⟩ := putM_stores hput
  rw [hsave] at hsv
  have hpl : pv = payload := Except.ok.inj hsv
  subst hpl
  have hinfo : infoM s' p = .ok (some ⟨mkSet ch, t, pv⟩) := by
    unfold infoM
    rw [hkey]
    simp only [vw_parse_save]
  unfold getM
  rw [hinfo]
  simp only [loadRes_refl, hload]

/-- Concrete single-version store used to witness C2. -/
def c2StoreW : Store :=
  putUnsafeVersion ["@root", "test"] ⟨[], 1, .uint 5⟩
    (putUnsafeVersion ["@root"] ⟨["test"], 1, .nil⟩ s0)

/-- Witness for C2: `put` then `get` of `5` at `@root/test` under the
single-version `Nat` schema. -/
theorem C2_roundtrip_witness :
    getM soloChainW 1 c2StoreW ["@root", "test"] = .ok (some 5) :=
  C2_roundtrip soloChainW 1 5 (.uint 5) ["@root", "test"] s0 c2StoreW false
    rfl rfl rfl rfl (by rfl)

/-! ## Claim C8: resolver termination -/

/-- Defining equation of the fueled resolver at positive fuel. -/
theorem loadChain_succ {α : Type} (c : Chain α) (fuel t v : Nat) (val : Value) :
    loadChain c (fuel + 1) t v val =
      if v = t then c.loadF t val
      else if v < t then
        if t ≤ c.prevV t ∨ v = 0 then .error (.msg (invalidPrevMsg (c.prevV t) v))
        else match loadChain c fuel (c.prevV t) v val with
          | .error e => .error e
          | .ok down => c.upgradeF t down
      else
        if c.nextV t ≤ t ∨ v = U64MAX then .error (.msg (invalidNextMsg (c.nextV t) v))
        else match loadChain c fuel (c.nextV t) v val with
          | .error e => .error e
          | .ok up => c.downgradeF t up := rfl

/-- A chain whose links are exactly adjacent (`prev` one less, `next` one
more, with the absent schema at version `0` closing a chain upward). -/
def WFChain {α : Type} (c : Chain α) : Prop :=
  ∀ u, c.prevV u = u - 1 ∧ (c.nextV u = u + 1 ∨ c.nextV u = 0)

theorem dist_self (t : Nat) : dist t t = 0 := by simp [dist]

/-- Fuel irrelevance: on a well-formed chain, any fuel above the version
distance computes the same result, so the fueled model coincides with the
Rust static recursion. -/
theorem loadChain_fuel_irrelevant {α : Type} {c : Chain α} (hwf : WFChain c) :
    ∀ d t v val fuel, dist t v ≤ d → dist t v < fuel →
      loadChain c fuel t v val = loadChain c (dist t v + 1) t v val := by
  intro d
  induction d with
  | zero =>
    intro t v val fuel hd hf
    have htv : t = v := by unfold dist at hd; omega
    subst htv
    rw [dist_self] at hf ⊢
    obtain ⟨f, rfl⟩ : ∃ f, fuel = f + 1 := ⟨fuel - 1, by omega⟩
    rw [loadChain_succ, loadChain_succ, if_pos rfl, if_pos rfl]
  | succ d ih =>
    intro t v val fuel hd hf
    obtain ⟨f, rfl⟩ : ∃ f, fuel = f + 1 := ⟨fuel - 1, by omega⟩
    by_cases htv : v = t
    · subst htv
      rw [dist_self]
      rw [loadChain_succ, loadChain_succ, if_pos rfl, if_pos rfl]
    · by_cases hlt : v < t
      · rw [loadChain_succ, loadChain_succ, if_neg htv, if_neg htv,
          if_pos hlt, if_pos hlt]
        by_cases hguard : t ≤ c.prevV t ∨ v = 0
        · rw [if_pos hguard, if_pos hguard]
        · rw [if_neg hguard, if_neg hguard]
          have hprev : c.prevV t = t - 1 := (hwf t).1
          have hdist : dist (c.prevV t) v + 1 = dist t v := by
            rw [hprev]
            unfold dist
            omega
          have h1 : loadChain c f (c.prevV t) v val
              = loadChain c (dist (c.prevV t) v + 1) (c.prevV t) v val := by
            apply ih
            · unfold dist at hd ⊢
              rw [hprev]
              omega
            · unfold dist at hf ⊢
              rw [hprev]
              omega
          have h2 : loadChain c (dist t v) (c.prevV t) v val
              = loadChain c (dist (c.prevV t) v + 1) (c.prevV t) v val := by
            apply ih
            · unfold dist at hd ⊢
              rw [hprev]
              omega
            · unfold dist at hd ⊢
              rw [hprev]
              omega
          rw [h1, ← h2]
      · have hgt : t < v := by omega
        rw [loadChain_succ, loadChain_succ, if_neg htv, if_neg htv,
          if_neg (by omega : ¬v < t), if_neg (by omega : ¬v < t)]
        by_cases hguard : c.nextV t ≤ t ∨ v = U64MAX
        · rw [if_pos hguard, if_pos hguard]
        · rw [if_neg hguard, if_neg hguard]
          have hnext : c.nextV t = t + 1 := by
            rcases (hwf t).2 with h | h
            · exact h
            · exfalso
              exact hguard (Or.inl (by omega))
          have hdist : dist (c.nextV t) v + 1 = dist t v := by
            rw [hnext]
            unfold dist
            omega
          have h1 : loadChain c f (c.nextV t) v val
              = loadChain c (dist (c.nextV t) v + 1) (c.nextV t) v val := by
            apply ih
            · unfold dist at hd ⊢
              rw [hnext]
              omega
            · unfold dist at hf ⊢
              rw [hnext]
              omega
          have h2 : loadChain c (dist t v) (c.nextV t) v val
              = loadChain c (dist (c.nextV t) v + 1) (c.nextV t) v val := by
            apply ih
            · unfold dist at hd ⊢
              rw [hnext]
              omega
            · unfold dist at hd ⊢
              rw [hnext]
              omega
          rw [h1, ← h2]

/-- C8: the resolver terminates on well-formed adjacency chains.  At
`v = T::VERSION` it calls `T::load` directly; it errors without recursing
when `PrevVersion` is not strictly below `T` or `v = 0` (upgrade side), or
when `NextVersion` is not strictly above `T` or `v = u64::MAX` (downgrade
side); and on a well-formed chain each recursive step moves one version
closer, so every fuel above the version distance yields the same result
(the recursion bottoms out). -/
theorem C8_resolver_termination {α : Type} (c : Chain α) :
    (∀ fuel t val, loadChain c (fuel + 1) t t val = c.loadF t val)
    ∧ (∀ fuel t v val, v < t → (t ≤ c.prevV t ∨ v = 0) →
        loadChain c (fuel + 1) t v val
          = .error (.msg (invalidPrevMsg (c.prevV t) v)))
    ∧ (∀ fuel t v val, t < v → (c.nextV t ≤ t ∨ v = U64MAX) →
        loadChain c (fuel + 1) t v val
          = .error (.msg (invalidNextMsg (c.nextV t) v)))
    ∧ (WFChain c → ∀ t v val fuel, dist t v < fuel →
        loadChain c fuel t v val = loadChain c (chainFuel t v) t v val) := by
  refine ⟨?_, ?_, ?_, ?_⟩
  · intro fuel t val
    rw [loadChain_succ, if_pos rfl]
  · intro fuel t v val hlt hguard
    rw [loadChain_succ, if_neg (by omega : ¬v = t), if_pos hlt, if_pos hguard]
  · intro fuel t v val hgt hguard
    rw [loadChain_succ, if_neg (by omega : ¬v = t), if_neg (by omega : ¬v < t),
      if_pos hguard]
  · intro hwf t v val fuel hf
    exact loadChain_fuel_irrelevant hwf (dist t v) t v val fuel (Nat.le_refl _) hf

/-- Witness for C8: on the concrete adjacent chain, fuel `5` and the
minimal fuel agree when resolving stored version 1 at type version 3. -/
theorem C8_resolver_termination_witness :
    loadChain stepChainW 5 3 1 .nil = loadChain stepChainW (chainFuel 3 1) 3 1 .nil :=
  (C8_resolver_termination stepChainW).2.2.2
    (fun u => ⟨rfl, Or.inl rfl⟩) 3 1 .nil 5 (by decide)

/-! ## Claim C3: adjacent-version upgrade/downgrade on read -/

theorem getM_present {α : Type} (c : Chain α) (t : Nat) {s : Store} {p : Path}
    {dw : DataWrapperV1} (h : infoM s p = .ok (some dw)) :
    getM c t s p = (loadRes c t dw.version dw.data).map some := by
  unfold getM
  rw [h]
  cases hl : loadRes c t dw.version dw.data <;> simp [hl, Except.map]

theorem loadChain_one_refl {α : Type} (c : Chain α) (t : Nat) (val : Value) :
    loadChain c 1 t t val = c.loadF t val := by
  have h1 : (1 : Nat) = chainFuel t t := by unfold chainFuel dist; omega
  rw [h1]
  exact loadRes_refl c t val

/-- C3 amended: for an adjacent schema pair at versions `k` and `k + 1`
(`k ≥ 1`, and — forced by the resolver's sentinel check — `k + 1 ≠
u64::MAX`), reading at the other version converts through the declared
`upgrade`/`downgrade`: after `put` at `k`, `get` at `k + 1` returns the
upgrade of the value; after `put` at `k + 1`, `get` at `k` returns the
downgrade. -/
theorem C3_adjacent_amended {α : Type} (c : Chain α) (t : Nat) (ht : 1 ≤ t)
    (hmax : t + 1 ≠ U64MAX) (hadj : c.prevV (t + 1) = t)
    (hadj2 : c.nextV t = t + 1) :
    (∀ v pv (p : Path) (s s' : Store) (w : Bool), c.saveF t v = .ok pv →
        c.loadF t pv = .ok v → putM t (c.saveF t v) p s = .ok (s', w) →
        getM c (t + 1) s' p = (c.upgradeF (t + 1) v).map some)
    ∧ (∀ v' pv' (p : Path) (s s' : Store) (w : Bool),
        c.saveF (t + 1) v' = .ok pv' → c.loadF (t + 1) pv' = .ok v' →
        putM (t + 1) (c.saveF (t + 1) v') p s = .ok (s', w) →
        getM c t s' p = (c.downgradeF t v').map some) := by
  constructor
  · intro v pv p s s' w hsave hload hput
    obtain ⟨ch, payload, hsv, hkey⟩ := putM_stores hput
    rw [hsave] at hsv
    have hpl : pv = payload := Except.ok.inj hsv
    subst hpl
    have hinfo : infoM s' p = .ok (some ⟨mkSet ch, t, pv⟩) := by
      unfold infoM
      rw [hkey]
      simp only [vw_parse_save]
    have hfuel : chainFuel (t + 1) t = 1 + 1 := by unfold chainFuel dist; omega
    have hres : loadRes c (t + 1) t pv = c.upgradeF (t + 1) v := by
      unfold loadRes
      rw [hfuel, loadChain_succ, if_neg (by omega : ¬t = t + 1),
        if_pos (by omega : t < t + 1),
        if_neg (show ¬(t + 1 ≤ c.prevV (t + 1) ∨ t = 0) by rw [hadj]; omega), hadj,
        loadChain_one_refl, hload]
    rw [getM_present c (t + 1) hinfo]
    simp only [hres]
  · intro v' pv' p s s' w hsave hload hput
    obtain ⟨ch, payload, hsv, hkey⟩ := putM_stores hput
    rw [hsave] at hsv
    have hpl : pv' = payload := Except.ok.inj hsv
    subst hpl
    have hinfo : infoM s' p = .ok (some ⟨mkSet ch, t + 1, pv'⟩) := by
      unfold infoM
      rw [hkey]
      simp only [vw_parse_save]
    have hfuel : chainFuel t (t + 1) = 1 + 1 := by unfold chainFuel dist; omega
    have hres : loadRes c t (t + 1) pv' = c.downgradeF t v' := by
      unfold loadRes
      rw [hfuel, loadChain_succ, if_neg (by omega : ¬t + 1 = t),
        if_neg (by omega : ¬t + 1 < t),
        if_neg (show ¬(c.nextV t ≤ t ∨ t + 1 = U64MAX) by
          rintro (hcontra | hcontra)
          · rw [hadj2] at hcontra; omega
          · exact hmax hcontra), hadj2,
        loadChain_one_refl, hload]
    rw [getM_present c t hinfo]
    simp only [hres]

/-- Witness for C3 (amended) at versions 1 and 2 of the concrete `Nat`
chain: `put` at version 1 then `get` at version 2 upgrades. -/
theorem C3_adjacent_amended_witness :
    getM stepChainW 2 c2StoreW ["@root", "test"] = (stepChainW.upgradeF 2 5).map some :=
  (C3_adjacent_amended stepChainW 1 (by decide) (by decide) rfl rfl).1
    5 (.uint 5) ["@root", "test"] s0 c2StoreW false rfl rfl (by rfl)

/-- Store after `put` at version `u64::MAX` of the concrete chain. -/
def c3BigStoreW : Store :=
  putUnsafeVersion ["@root", "b"] ⟨[], U64MAX, .uint 7⟩
    (putUnsafeVersion ["@root"] ⟨["b"], 1, .nil⟩ s0)

/-- Counterexample to C3 as stated: at the adjacent pair with versions
`u64::MAX - 1` and `u64::MAX` (mutual conversions, load inverting save), a
successful `put` at the newer version followed by `get` at the older one
hits the resolver's `version == u64::MAX` sentinel and fails instead of
returning `Some(downgrade(v'))`. -/
theorem C3_adjacent_counterexample :
    stepChainW.prevV U64MAX = U64MAX - 1
    ∧ stepChainW.nextV (U64MAX - 1) = U64MAX
    ∧ stepChainW.loadF U64MAX (.uint 7) = .ok 7
    ∧ stepChainW.downgradeF (U64MAX - 1) 7 = .ok 3
    ∧ putM U64MAX (stepChainW.saveF U64MAX 7) ["@root", "b"] s0
        = .ok (c3BigStoreW, false)
    ∧ getM stepChainW (U64MAX - 1) c3BigStoreW ["@root", "b"]
        = .error (.msg (invalidNextMsg U64MAX U64MAX))
    ∧ getM stepChainW (U64MAX - 1) c3BigStoreW ["@root", "b"] ≠ .ok (some 3) := by
  have hget : getM stepChainW (U64MAX - 1) c3BigStoreW ["@root", "b"]
      = .error (.msg (invalidNextMsg U64MAX U64MAX)) := by rfl
  refine ⟨rfl, by decide, rfl, rfl, by rfl, hget, ?_⟩
  rw [hget]
  intro h
  exact Except.noConfusion h

/-! ## Claim C4: the on-disk envelope shape -/

/-- C4 amended: every value a reachable store holds is the encoding of the
`VersionWrapper` nesting `[1, [children, stored_version, payload]]` — a
two-element top-level array whose first element is the wrapper's version
tag `1` and whose second element is the three-element envelope with the
stored payload version as its middle entry (not the flat three-element
array the spec's compatibility-surface sentence describes). -/
theorem C4_envelope_shape {s : Store} (hs : Reach s) {k : String} {v : Value}
    (hv : s k = some v) :
    ∃ d : DataWrapperV1,
      v = .arr [.uint 1,
        .arr [.arr (d.children.map Value.str), .uint d.version, d.data]] := by
  obtain ⟨d, rfl, _⟩ := (inv_reach hs).shape k v hv
  exact ⟨d, rfl⟩

/-- Witness for C4 (amended) at the root envelope of the bootstrapped
store. -/
theorem C4_envelope_shape_witness :
    ∃ d : DataWrapperV1, VersionWrapper.save ⟨[], 1, .nil⟩
      = .arr [.uint 1,
          .arr [.arr (d.children.map Value.str), .uint d.version, d.data]] :=
  C4_envelope_shape Reach.init
    (show s0 "@root" = some (VersionWrapper.save ⟨[], 1, .nil⟩) from rfl)

/-- Store after one `put` of the unsigned value `5` at `@root/t`. -/
def c4StoreW : Store :=
  putUnsafeVersion ["@root", "t"] ⟨[], 1, .uint 5⟩
    (putUnsafeVersion ["@root"] ⟨["t"], 1, .nil⟩ s0)

/-- Counterexample to C4 as stated: after a successful `put`, the value at
the key is the two-element array `[1, [children, version, payload]]`, not
the flat three-element array `[children, version, payload]` the claim
requires as the top-level encoded value. -/
theorem C4_counterexample :
    putM 1 (.ok (.uint 5)) ["@root", "t"] s0 = .ok (c4StoreW, false)
    ∧ c4StoreW "@root/t" = some (.arr [.uint 1, .arr [.arr [], .uint 1, .uint 5]])
    ∧ c4StoreW "@root/t" ≠ some (.arr [.arr [], .uint 1, .uint 5]) := by
  have hval : c4StoreW "@root/t"
      = some (.arr [.uint 1, .arr [.arr [], .uint 1, .uint 5]]) := by rfl
  refine ⟨by rfl, hval, ?_⟩
  rw [hval]
  intro h
  simp at h

end Lmtreedb
